import Mathlib

/-!
Shallow embedding of the asetil Monte-Carlo package (Python) in Lean 4,
together with theorems settling the specification claims about it.

Conventions of the embedding:
* Python floats are modelled as exact rationals where only field arithmetic
  and comparisons occur, and as real numbers where the exponential function
  is involved.
* An ase.Atoms object is modelled as a list of sites, each carrying a
  chemical symbol, an integer tag, and a position.
* A Python property setter that may raise is modelled as a function
  returning the new state paired with an optional error message; the state
  component equals the input state when the error is raised before any
  field assignment, mirroring the order of operations in the source.
-/

set_option linter.unusedVariables false

namespace Asetil

/-! ### Temperature / beta state (monte_carlo.py lines 18-38, proposer.py lines 22-42)

Both BaseMonteCarlo and Proposer carry the same pair of private fields
and textually identical setter bodies, so one embedding serves both. -/

/-- State held by the temperature and beta properties. -/
structure TBState where
  temperature : ℚ
  beta : ℚ
deriving DecidableEq

/-- Boltzmann constant, ase.units.kB = 8.617330337217213e-05 eV/K. -/
def kB : ℚ := 8617330337217213 / 10 ^ 20

/-- Embeds the temperature setter: raise on non-positive input, otherwise
assign the temperature field and recompute the beta field. -/
def setTemperature (s : TBState) (temperature : ℚ) : TBState × Option String :=
  if temperature ≤ 0 then (s, some "temperature must be positive")
  else ({ temperature := temperature, beta := 1 / kB / temperature }, none)

/-- Embeds the beta setter: raise on non-positive input, otherwise assign
the beta field and recompute the temperature field. -/
def setBeta (s : TBState) (beta : ℚ) : TBState × Option String :=
  if beta ≤ 0 then (s, some "beta must be positive")
  else ({ temperature := 1 / kB / beta, beta := beta }, none)

/-! ### MCStepInfo fields versus the keyword arguments used to build it
(step_info.py lines 6-17, monte_carlo.py lines 63-75 and 91-103) -/

/-- Field and keyword names occurring around the MCStepInfo dataclass. -/
inductive MCField where
  | iterationF
  | temperatureF
  | betaF
  | samplerF
  | isAcceptedF
  | acceptabilityF
  | systemF
  | candidateF
  | latestAcceptedEnergyF
  | deltaEnergyF
  | tagsF
deriving DecidableEq

/-- The fields declared by the MCStepInfo dataclass in step_info.py. -/
def mcStepInfoFields : List MCField :=
  [.iterationF, .temperatureF, .betaF, .samplerF, .isAcceptedF,
   .acceptabilityF, .systemF, .candidateF, .latestAcceptedEnergyF,
   .deltaEnergyF]

/-- The keyword arguments that MonteCarlo.step (and MonteCarlo's
constructor) passes to the MCStepInfo constructor in monte_carlo.py. -/
def stepInfoKwargs : List MCField :=
  [.iterationF, .temperatureF, .betaF, .samplerF, .isAcceptedF,
   .acceptabilityF, .systemF, .candidateF, .latestAcceptedEnergyF,
   .deltaEnergyF, .tagsF]

/-! ### MCPFileLogger (logger.py lines 41-58) -/

/-- Embeds the body of MCPFileLogger's constructor after the field
assignments: it raises whenever force_overwrite is not set, without
consulting whether the target file exists. -/
def mcpFileLoggerCtorCheck (fileExists forceOverwrite : Bool) : Except String Unit :=
  if !forceOverwrite then Except.error "File already exists." else Except.ok ()

/-- Embeds the existence check at the top of the MCPFileLogger
initialization method: it raises only when the file exists and
force_overwrite is not set. -/
def mcpFileLoggerInitMethodCheck (fileExists forceOverwrite : Bool) : Except String Unit :=
  if fileExists && !forceOverwrite then Except.error "File already exists."
  else Except.ok ()

/-! ### RandomTagSelector (tag_selector.py lines 26-32) -/

/-- Embeds the branch choosing the tag pool in RandomTagSelector.select:
when target_tags is not None the pool is the system's tags, otherwise the
pool is target_tags itself, i.e. None (iterating it raises TypeError,
modelled as the none result). -/
def randomTagSelectorPool (targetTags : Option (List ℤ)) (systemTags : List ℤ) :
    Option (List ℤ) :=
  match targetTags with
  | some _ => some systemTags
  | none => none

/-- Embeds the available_tags comprehension of RandomTagSelector.select:
filter the pool by the ignore list (none propagates the TypeError). -/
def randomTagSelectorAvailable (targetTags : Option (List ℤ)) (ignoreTags : List ℤ)
    (systemTags : List ℤ) : Option (List ℤ) :=
  (randomTagSelectorPool targetTags systemTags).map
    (fun tags => tags.filter (fun tag => decide (tag ∉ ignoreTags)))

/-! ### Sites: the model of ase.Atoms contents -/

/-- One atom of an ase.Atoms object: chemical symbol, tag, position. -/
structure Site where
  symbol : String
  tag : ℤ
  position : ℚ × ℚ × ℚ
deriving DecidableEq

/-! ### AddSampler.sample and RemoveSampler.sample
(sampler.py lines 339-357 and 390-394) -/

/-- Embeds AddSampler.sample.  The random placement and orientation of
each inserted copy of the additive is abstracted into the placement
argument; per selected tag the candidate is extended by a copy of the
additive retagged with that tag and moved by placement.  The function
returns exactly what the source returns at line 357: the original
system, not the candidate. -/
def addSamplerSample (additive : List Site) (placement : ℤ → Site → Site)
    (system : List Site) (tags : List ℤ) : List Site :=
  let candidate := tags.foldl
    (fun cand tag =>
      cand ++ (additive.map (fun s => { s with tag := tag })).map (placement tag))
    system
  system

/-- Embeds RemoveSampler.sample: the candidate keeps the sites whose tag
is not among the selected tags, but the source returns the original
system at line 394, not the candidate. -/
def removeSamplerSample (system : List Site) (tags : List ℤ) : List Site :=
  let candidate := system.filter (fun s => decide (s.tag ∉ tags))
  system

/-! ### Acceptability functions (sampler.py, util.py) -/

/-- Avogadro constant, ase.units._Nav. -/
noncomputable def NavConst : ℝ := 6.02214076e23

/-- Planck constant in J s, ase.units._hplanck. -/
noncomputable def hplanckConst : ℝ := 6.62607015e-34

/-- One Joule in ase units (eV), ase.units.J = 1 / 1.602176634e-19. -/
noncomputable def JConst : ℝ := 1 / 1.602176634e-19

/-- Embeds util.calc_thermal_de_broglie: thermal de Broglie wavelength in
Angstrom from a molecular weight in g/mol and an inverse temperature in
1/eV. -/
noncomputable def calcThermalDeBroglie (molecularWeight beta : ℝ) : ℝ :=
  let mw := molecularWeight * 1e-3
  let mass := mw / NavConst
  let betaJ := beta / JConst
  hplanckConst / Real.sqrt (2 * Real.pi * mass / betaJ) * 1e10

/-- Embeds the num_molecule computation of AddSampler.calc_acceptability
and RemoveSampler.calc_acceptability: the number of distinct non-zero
tags of the after configuration. -/
def numMolecule (afterTags : List ℤ) : ℕ :=
  (afterTags.filter (fun t => decide (t ≠ 0))).dedup.length

/-- Embeds the final two lines of AddSampler.calc_acceptability, with the
already computed thermal de Broglie wavelength dbl, number of molecules
num and volume vol as arguments. -/
noncomputable def addAcceptability (dbl : ℝ) (num : ℕ) (vol beta deltaEnergy : ℝ) : ℝ :=
  min 1 (Real.exp (beta * deltaEnergy) * vol / (num * dbl ^ 3))

/-- Embeds the final two lines of RemoveSampler.calc_acceptability, with
the already computed thermal de Broglie wavelength dbl, number of
molecules num and volume vol as arguments. -/
noncomputable def removeAcceptability (dbl : ℝ) (num : ℕ) (vol beta deltaEnergy : ℝ) : ℝ :=
  min 1 (Real.exp (beta * deltaEnergy) / vol * ((num + 1) * dbl ^ 3))

/-- Embeds AddSampler.calc_acceptability: additiveMass is the summed mass
of the additive, afterTags the tags of the after configuration, afterVol
its volume. -/
noncomputable def addSamplerCalcAcceptability (additiveMass : ℝ) (afterTags : List ℤ)
    (afterVol beta deltaEnergy : ℝ) : ℝ :=
  addAcceptability (calcThermalDeBroglie additiveMass beta) (numMolecule afterTags)
    afterVol beta deltaEnergy

/-- Embeds RemoveSampler.calc_acceptability. -/
noncomputable def removeSamplerCalcAcceptability (additiveMass : ℝ) (afterTags : List ℤ)
    (afterVol beta deltaEnergy : ℝ) : ℝ :=
  removeAcceptability (calcThermalDeBroglie additiveMass beta) (numMolecule afterTags)
    afterVol beta deltaEnergy

/-- Embeds calc_acceptability of the canonical samplers (Translate,
EulerRotate, XYZAxesRotate, SiteExchange, SymbolExchange): all five have
the same body min(1, exp(-beta * delta_energy)). -/
noncomputable def canonicalAcceptability (beta deltaEnergy : ℝ) : ℝ :=
  min 1 (Real.exp (-beta * deltaEnergy))

/-! ### NotExistTagSelector.select (tag_selector.py lines 43-52) -/

/-- Embeds the inner while loop of NotExistTagSelector.select, which
advances the tag past every value contained in the tag set.  The loop is
given fuel; card tags + 1 units always suffice, see nextFreeTag_spec. -/
def nextFreeTag (tags : Finset ℤ) : ℕ → ℤ → ℤ
  | 0, tag => tag
  | fuel + 1, tag => if tag ∈ tags then nextFreeTag tags fuel (tag + 1) else tag

/-- Embeds the outer while loop of NotExistTagSelector.select: pick the
next free tag, append it to the selection, add it to the tag set. -/
def notExistSelectAux (tags : Finset ℤ) (tag : ℤ) : ℕ → List ℤ
  | 0 => []
  | n + 1 =>
    let t := nextFreeTag tags (tags.card + 1) tag
    t :: notExistSelectAux (insert t tags) t n

/-- Embeds NotExistTagSelector.select: the tag set is the union of the
system's tags and the ignore list, scanning starts at zero. -/
def notExistTagSelect (systemTags ignoreTags : List ℤ) (numTags : ℕ) : List ℤ :=
  notExistSelectAux (systemTags.toFinset ∪ ignoreTags.toFinset) 0 numTags

/-! ### ChemicalSymbolExchangeSampler.sample (semc.py lines 93-106) -/

/-- Simultaneous swap assignment of the entries at positions i and j of a
list, as in symbols i1 comma symbols i2 = symbols i2 comma symbols i1;
d is the out-of-range default (indices used by the sampler are always in
range). -/
def swapAt (l : List α) (d : α) (i j : ℕ) : List α :=
  (l.set i (l.getD j d)).set j (l.getD i d)

/-- Embeds the index comprehensions of the sampler loop: the positions at
which the enumerate over candidate.get_tags() shows the given tag.  The
candidate's stored tags are only rewritten after the loop, so these are
always the tags of the input system. -/
def tagIndices (systemTags : List ℤ) (t : ℤ) : List ℕ :=
  (List.range systemTags.length).filter (fun i => decide (systemTags.getD i 0 = t))

/-- Embeds the body of the sampler's double loop: for each zipped index
pair, swap the two entries of the symbols list and of the tags list. -/
def exchangeLoop (systemTags : List ℤ) (tagPairs : List (ℤ × ℤ))
    (st : List String × List ℤ) : List String × List ℤ :=
  tagPairs.foldl
    (fun st p =>
      let index1 := tagIndices systemTags p.1
      let index2 := tagIndices systemTags p.2
      (index1.zip index2).foldl
        (fun st ij => (swapAt st.1 "" ij.1 ij.2, swapAt st.2 0 ij.1 ij.2)) st)
    st

/-- Embeds candidate.set_chemical_symbols(symbols). -/
def setSymbols (c : List Site) (syms : List String) : List Site :=
  c.zipWith (fun site s => { site with symbol := s }) syms

/-- Embeds candidate.set_tags(all_tags). -/
def setSiteTags (c : List Site) (ts : List ℤ) : List Site :=
  c.zipWith (fun site t => { site with tag := t }) ts

/-- Embeds ChemicalSymbolExchangeSampler.sample: copy the system, read the
symbols and tags lists, swap pairwise inside both lists for every zipped
index pair of every selected tag pair, then write both lists back. -/
def chemicalSymbolExchangeSample (system : List Site) (tagPairs : List (ℤ × ℤ)) :
    List Site :=
  let symbols := system.map (fun s => s.symbol)
  let allTags := system.map (fun s => s.tag)
  let st := exchangeLoop (system.map (fun s => s.tag)) tagPairs (symbols, allTags)
  setSiteTags (setSymbols system st.1) st.2

/-! ### Helper lemmas -/

lemma kB_pos : 0 < kB := by norm_num [kB]

/-! ### Claim theorems -/

/-- C1: MonteCarlo.step builds an MCStepInfo record that carries, among the
other fields, the selected tags.  This fails on the code: the keyword
arguments passed to the MCStepInfo constructor by monte_carlo.py include
tags, but the MCStepInfo dataclass declares no tags field, so the call
raises TypeError.  The theorem computes the exact set of keyword arguments
of the call that are not dataclass fields: it is the tags keyword alone. -/
theorem step_info_tags_kwarg_not_a_field :
    stepInfoKwargs.filter (fun k => decide (k ∉ mcStepInfoFields)) = [MCField.tagsF] := by
  decide

/-- Example two-site configuration used to evaluate the samplers. -/
def exampleSystem : List Site :=
  [⟨"H", 1, (0, 0, 0)⟩, ⟨"H", 2, (1, 0, 0)⟩]

/-- Example one-site additive fragment. -/
def exampleAdditive : List Site := [⟨"O", 0, (0, 0, 0)⟩]

/-- C2: AddSampler.sample must return a candidate with more sites than the
input and RemoveSampler.sample one with fewer.  This fails on the code:
both methods build the candidate and then return the original system
object, so the returned configuration is unchanged.  Evaluated on a
two-site system: Add with one selected tag and Remove of an existing tag
both return the input system itself. -/
theorem add_remove_sample_return_original :
    addSamplerSample exampleAdditive (fun _ s => s) exampleSystem [5] = exampleSystem ∧
    removeSamplerSample exampleSystem [1] = exampleSystem ∧
    exampleSystem.length = 2 ∧ exampleAdditive.length = 1 := by
  refine ⟨rfl, rfl, rfl, rfl⟩

/-- C3: RandomTagSelector.select must draw from the configuration's tags
by default and from the target_tags allow-list when one is given.  This
fails on the code: the branch is inverted, so with target_tags = None the
pool is None (iterating raises TypeError, the none result below), and
with an allow-list the pool is the system's tags and the allow-list is
ignored. -/
theorem random_tag_selector_branch_inverted :
    randomTagSelectorAvailable none [] [1, 2, 3] = none ∧
    randomTagSelectorAvailable (some [7]) [] [1, 2, 3] = some [1, 2, 3] := by
  refine ⟨rfl, rfl⟩

/-- C4: constructing MCPFileLogger against a non-existing path without
force_overwrite must succeed.  This fails on the code: the constructor
raises whenever force_overwrite is not set, because the existence check
was left out of the condition (the initialization method performs the
intended check, shown for contrast). -/
theorem mcp_file_logger_ctor_raises_without_existing_file :
    mcpFileLoggerCtorCheck false false = Except.error "File already exists." ∧
    mcpFileLoggerInitMethodCheck false false = Except.ok () := by
  refine ⟨rfl, rfl⟩

/-- C5: for the engine and for the Proposer (identical setter bodies),
after a successful assignment to temperature or to beta the invariant
beta = 1 / (kB * temperature) holds; a non-positive assignment raises
instead of clamping; and setting beta to the value derived from a
temperature back-computes that temperature exactly. -/
theorem temperature_beta_invariant :
    (∀ (s : TBState) (t : ℚ), 0 < t →
      (setTemperature s t).2 = none ∧
      (setTemperature s t).1.beta = 1 / (kB * (setTemperature s t).1.temperature)) ∧
    (∀ (s : TBState) (b : ℚ), 0 < b →
      (setBeta s b).2 = none ∧
      (setBeta s b).1.beta = 1 / (kB * (setBeta s b).1.temperature)) ∧
    (∀ (s : TBState) (t : ℚ), t ≤ 0 → (setTemperature s t).2.isSome) ∧
    (∀ (s : TBState) (b : ℚ), b ≤ 0 → (setBeta s b).2.isSome) ∧
    (∀ (s s' : TBState) (t : ℚ), 0 < t →
      (setBeta s' ((setTemperature s t).1.beta)).1.temperature = t) := by
  have hkB : (kB : ℚ) ≠ 0 := ne_of_gt kB_pos
  refine ⟨?_, ?_, ?_, ?_, ?_⟩
  · intro s t ht
    rw [setTemperature, if_neg (not_le.mpr ht)]
    exact ⟨rfl, by rw [div_div]⟩
  · intro s b hb
    rw [setBeta, if_neg (not_le.mpr hb)]
    refine ⟨rfl, ?_⟩
    field_simp
  · intro s t ht
    rw [setTemperature, if_pos ht]
    rfl
  · intro s b hb
    rw [setBeta, if_pos hb]
    rfl
  · intro s s' t ht
    rw [setTemperature, if_neg (not_le.mpr ht)]
    have hbeta : (0 : ℚ) < 1 / kB / t := div_pos (div_pos one_pos kB_pos) ht
    rw [setBeta, if_neg (not_le.mpr hbeta)]
    field_simp

/-- Witness for C5 at temperature 300 on the state (1, 1). -/
theorem temperature_beta_invariant_witness :
    (setTemperature ⟨1, 1⟩ 300).2 = none ∧
    (setTemperature ⟨1, 1⟩ 300).1.beta
      = 1 / (kB * (setTemperature ⟨1, 1⟩ 300).1.temperature) :=
  temperature_beta_invariant.1 ⟨1, 1⟩ 300 (by norm_num)

/-- C10: assigning a non-positive value to temperature or to beta raises
and leaves the stored state exactly as it was: the positivity check comes
before any field assignment. -/
theorem failed_setter_preserves_state :
    ∀ (s : TBState) (v : ℚ), v ≤ 0 →
      (setTemperature s v).1 = s ∧ (setTemperature s v).2.isSome ∧
      (setBeta s v).1 = s ∧ (setBeta s v).2.isSome := by
  intro s v hv
  rw [setTemperature, setBeta, if_pos hv, if_pos hv]
  exact ⟨rfl, rfl, rfl, rfl⟩

/-- Witness for C10 at value -1 on the state (1, 1). -/
theorem failed_setter_preserves_state_witness :
    (setTemperature ⟨1, 1⟩ (-1)).1 = ⟨1, 1⟩ ∧ (setTemperature ⟨1, 1⟩ (-1)).2.isSome ∧
    (setBeta ⟨1, 1⟩ (-1)).1 = ⟨1, 1⟩ ∧ (setBeta ⟨1, 1⟩ (-1)).2.isSome :=
  failed_setter_preserves_state ⟨1, 1⟩ (-1) (by norm_num)

/-- The thermal de Broglie wavelength computed by the code is never
negative: positive constant over a square root. -/
lemma calcThermalDeBroglie_nonneg (mw beta : ℝ) : 0 ≤ calcThermalDeBroglie mw beta := by
  have h : (0 : ℝ) ≤ hplanckConst := by norm_num [hplanckConst]
  have hs : (0 : ℝ) ≤ Real.sqrt (2 * Real.pi * (mw * 1e-3 / NavConst) / (beta / JConst)) :=
    Real.sqrt_nonneg _
  unfold calcThermalDeBroglie
  have := div_nonneg h hs
  positivity

/-- Both grand-canonical acceptability values lie in the unit interval
whenever the volume is non-negative. -/
lemma add_remove_acceptability_mem_unit (dbl : ℝ) (num : ℕ) (vol beta dE : ℝ)
    (hdbl : 0 ≤ dbl) (hvol : 0 ≤ vol) :
    0 ≤ addAcceptability dbl num vol beta dE ∧ addAcceptability dbl num vol beta dE ≤ 1 ∧
    0 ≤ removeAcceptability dbl num vol beta dE ∧
      removeAcceptability dbl num vol beta dE ≤ 1 := by
  have hexp : (0 : ℝ) ≤ Real.exp (beta * dE) := (Real.exp_pos _).le
  have hnum : (0 : ℝ) ≤ (num : ℝ) := Nat.cast_nonneg num
  have hd3 : (0 : ℝ) ≤ dbl ^ 3 := pow_nonneg hdbl 3
  refine ⟨le_min ?_ ?_, min_le_left _ _, le_min ?_ ?_, min_le_left _ _⟩
  · norm_num
  · exact div_nonneg (mul_nonneg hexp hvol) (mul_nonneg hnum hd3)
  · norm_num
  · exact mul_nonneg (div_nonneg hexp hvol) (mul_nonneg (by positivity) hd3)

/-- C7: AddSampler.calc_acceptability equals
min(1, exp(beta dE) V / (N Lambda^3)) and RemoveSampler.calc_acceptability
equals min(1, exp(beta dE) / V ((N+1) Lambda^3)), with V the volume of the
after configuration, N its count of distinct non-zero tags and Lambda the
thermal de Broglie wavelength of the additive; and with dE = 0, V = 1000,
N = 10 and Lambda = 1 the Add acceptability is exactly 1. -/
theorem add_remove_acceptability_formula :
    (∀ (additiveMass : ℝ) (afterTags : List ℤ) (afterVol beta dE : ℝ),
      addSamplerCalcAcceptability additiveMass afterTags afterVol beta dE =
        min 1 (Real.exp (beta * dE) * afterVol /
          ((numMolecule afterTags : ℝ) * calcThermalDeBroglie additiveMass beta ^ 3))) ∧
    (∀ (additiveMass : ℝ) (afterTags : List ℤ) (afterVol beta dE : ℝ),
      removeSamplerCalcAcceptability additiveMass afterTags afterVol beta dE =
        min 1 (Real.exp (beta * dE) / afterVol *
          (((numMolecule afterTags : ℝ) + 1)
            * calcThermalDeBroglie additiveMass beta ^ 3))) ∧
    addAcceptability 1 10 1000 1 0 = 1 := by
  refine ⟨fun _ _ _ _ _ => rfl, fun _ _ _ _ _ => rfl, ?_⟩
  unfold addAcceptability
  rw [mul_zero, Real.exp_zero]
  norm_num

/-- C6 counterexample: the acceptability of the Add variant is not
monotonically non-increasing in delta_energy.  At beta = 1 with volume 1,
one molecule and unit de Broglie wavelength, raising delta_energy from -2
to 0 raises the acceptability from exp(-2) to 1. -/
theorem add_acceptability_increases_with_delta_energy :
    ¬ (addAcceptability 1 1 1 1 0 ≤ addAcceptability 1 1 1 1 (-2)) := by
  have h2 : Real.exp (-2 : ℝ) < 1 := by
    rw [Real.exp_lt_one_iff]
    norm_num
  unfold addAcceptability
  simp only [Nat.cast_one, one_pow, one_mul, mul_one, div_one, mul_zero,
    Real.exp_zero, min_self]
  rw [min_eq_right h2.le]
  exact not_le.mpr h2

/-- C6 amended: with beta > 0, every variant's calc_acceptability lies in
the unit interval (the grand-canonical ones for a non-negative volume);
the canonical variants return exactly min(1, exp(-beta dE)), are
monotonically non-increasing in delta_energy and equal exactly 1 whenever
delta_energy is non-positive; the grand-canonical Add and Remove variants
are monotonically non-decreasing in delta_energy. -/
theorem acceptability_range_and_monotonicity :
    ∀ beta : ℝ, 0 < beta →
      (∀ dE, 0 ≤ canonicalAcceptability beta dE ∧ canonicalAcceptability beta dE ≤ 1) ∧
      (∀ dE, canonicalAcceptability beta dE = min 1 (Real.exp (-beta * dE))) ∧
      (∀ d1 d2, d1 ≤ d2 →
        canonicalAcceptability beta d2 ≤ canonicalAcceptability beta d1) ∧
      (∀ dE, dE ≤ 0 → canonicalAcceptability beta dE = 1) ∧
      (∀ (additiveMass : ℝ) (afterTags : List ℤ) (afterVol dE : ℝ), 0 ≤ afterVol →
        (0 ≤ addSamplerCalcAcceptability additiveMass afterTags afterVol beta dE ∧
          addSamplerCalcAcceptability additiveMass afterTags afterVol beta dE ≤ 1) ∧
        (0 ≤ removeSamplerCalcAcceptability additiveMass afterTags afterVol beta dE ∧
          removeSamplerCalcAcceptability additiveMass afterTags afterVol beta dE ≤ 1)) ∧
      (∀ (dbl vol : ℝ) (num : ℕ) (d1 d2 : ℝ), 0 ≤ dbl → 0 ≤ vol → d1 ≤ d2 →
        addAcceptability dbl num vol beta d1 ≤ addAcceptability dbl num vol beta d2 ∧
        removeAcceptability dbl num vol beta d1
          ≤ removeAcceptability dbl num vol beta d2) := by
  intro beta hbeta
  refine ⟨?_, fun _ => rfl, ?_, ?_, ?_, ?_⟩
  · intro dE
    exact ⟨le_min (by norm_num) (Real.exp_pos _).le, min_le_left _ _⟩
  · intro d1 d2 h
    unfold canonicalAcceptability
    refine min_le_min le_rfl (Real.exp_le_exp.mpr ?_)
    have := mul_le_mul_of_nonneg_left h hbeta.le
    nlinarith
  · intro dE hdE
    unfold canonicalAcceptability
    refine min_eq_left (Real.one_le_exp ?_)
    have : 0 ≤ beta * (-dE) := mul_nonneg hbeta.le (by linarith)
    nlinarith
  · intro additiveMass afterTags afterVol dE hvol
    have h := add_remove_acceptability_mem_unit (calcThermalDeBroglie additiveMass beta)
      (numMolecule afterTags) afterVol beta dE
      (calcThermalDeBroglie_nonneg additiveMass beta) hvol
    exact ⟨⟨h.1, h.2.1⟩, ⟨h.2.2.1, h.2.2.2⟩⟩
  · intro dbl vol num d1 d2 hdbl hvol h
    have hexp : Real.exp (beta * d1) ≤ Real.exp (beta * d2) :=
      Real.exp_le_exp.mpr (mul_le_mul_of_nonneg_left h hbeta.le)
    have hd3 : (0 : ℝ) ≤ dbl ^ 3 := pow_nonneg hdbl 3
    constructor
    · refine min_le_min le_rfl ?_
      exact div_le_div_of_nonneg_right (mul_le_mul_of_nonneg_right hexp hvol)
        (mul_nonneg (Nat.cast_nonneg num) hd3)
    · refine min_le_min le_rfl ?_
      exact mul_le_mul_of_nonneg_right (div_le_div_of_nonneg_right hexp hvol)
        (mul_nonneg (by positivity) hd3)

/-- Witness for the amended C6 at beta = 1, delta_energy = -1: the
canonical acceptability saturates at 1. -/
theorem acceptability_range_and_monotonicity_witness :
    canonicalAcceptability 1 (-1) = 1 :=
  (acceptability_range_and_monotonicity 1 (by norm_num)).2.2.2.1 (-1) (by norm_num)

/-- The inner scanning loop of NotExistTagSelector.select finds, given
enough fuel, a tag outside the tag set that is at least the start tag. -/
lemma nextFreeTag_spec (tags : Finset ℤ) :
    ∀ (fuel : ℕ) (t : ℤ), (tags.filter (fun x => t ≤ x)).card < fuel →
      nextFreeTag tags fuel t ∉ tags ∧ t ≤ nextFreeTag tags fuel t := by
  intro fuel
  induction fuel with
  | zero => exact fun t h => absurd h (Nat.not_lt_zero _)
  | succ f ih =>
    intro t h
    by_cases ht : t ∈ tags
    · have hss : tags.filter (fun x => t + 1 ≤ x) ⊂ tags.filter (fun x => t ≤ x) := by
        refine (Finset.ssubset_iff_of_subset
          (Finset.monotone_filter_right tags (fun x hx => by omega))).mpr ?_
        refine ⟨t, Finset.mem_filter.mpr ⟨ht, le_refl t⟩, fun hc => ?_⟩
        have := (Finset.mem_filter.mp hc).2
        omega
      have hcard : (tags.filter (fun x => t + 1 ≤ x)).card < f := by
        have := Finset.card_lt_card hss
        omega
      have hrec := ih (t + 1) hcard
      rw [nextFreeTag, if_pos ht]
      exact ⟨hrec.1, le_trans (by omega) hrec.2⟩
    · rw [nextFreeTag, if_neg ht]
      exact ⟨ht, le_refl t⟩

/-- The fuel card tags + 1 used at the call sites always suffices. -/
lemma nextFreeTag_call (tags : Finset ℤ) (t : ℤ) :
    nextFreeTag tags (tags.card + 1) t ∉ tags ∧ t ≤ nextFreeTag tags (tags.card + 1) t :=
  nextFreeTag_spec tags (tags.card + 1) t
    (Nat.lt_succ_of_le (Finset.card_filter_le tags _))

/-- The outer loop returns exactly the requested number of tags. -/
lemma notExistSelectAux_length :
    ∀ (n : ℕ) (tags : Finset ℤ) (tag : ℤ), (notExistSelectAux tags tag n).length = n := by
  intro n
  induction n with
  | zero => intro tags tag; rfl
  | succ m ih =>
    intro tags tag
    rw [notExistSelectAux]
    simp [ih]

/-- Every returned tag is outside the running tag set and at least the
current scan position. -/
lemma notExistSelectAux_mem :
    ∀ (n : ℕ) (tags : Finset ℤ) (tag x : ℤ), x ∈ notExistSelectAux tags tag n →
      x ∉ tags ∧ tag ≤ x := by
  intro n
  induction n with
  | zero => intro tags tag x hx; exact absurd hx (List.not_mem_nil x)
  | succ m ih =>
    intro tags tag x hx
    rw [notExistSelectAux] at hx
    have hcall := nextFreeTag_call tags tag
    rcases List.mem_cons.mp hx with hx | hx
    · subst hx
      exact hcall
    · have htail := ih _ _ _ hx
      refine ⟨fun hc => htail.1 (Finset.mem_insert_of_mem hc), ?_⟩
      exact le_trans hcall.2 htail.2

/-- The returned tags are mutually distinct. -/
lemma notExistSelectAux_nodup :
    ∀ (n : ℕ) (tags : Finset ℤ) (tag : ℤ), (notExistSelectAux tags tag n).Nodup := by
  intro n
  induction n with
  | zero => intro tags tag; exact List.nodup_nil
  | succ m ih =>
    intro tags tag
    rw [notExistSelectAux]
    refine List.nodup_cons.mpr ⟨fun hc => ?_, ih _ _⟩
    exact (notExistSelectAux_mem m _ _ _ hc).1 (Finset.mem_insert_self _ _)

/-- C8: NotExistTagSelector.select returns exactly n mutually distinct
non-negative tags, none present among the configuration's tags and none
in the ignore list. -/
theorem not_exist_tag_selector_spec :
    ∀ (systemTags ignoreTags : List ℤ) (n : ℕ),
      (notExistTagSelect systemTags ignoreTags n).length = n ∧
      (notExistTagSelect systemTags ignoreTags n).Nodup ∧
      ∀ x ∈ notExistTagSelect systemTags ignoreTags n,
        x ∉ systemTags ∧ x ∉ ignoreTags ∧ 0 ≤ x := by
  intro systemTags ignoreTags n
  refine ⟨notExistSelectAux_length n _ 0, notExistSelectAux_nodup n _ 0, ?_⟩
  intro x hx
  have h := notExistSelectAux_mem n _ 0 x hx
  have hnot := h.1
  rw [Finset.mem_union, List.mem_toFinset, List.mem_toFinset] at hnot
  push_neg at hnot
  exact ⟨hnot.1, hnot.2, h.2⟩

/-- Witness for C8 on the system tags 0, 1, 5 with ignore tag 2 and three
requested tags: the selection has length three, and the concrete member 3
is outside the system tags, outside the ignore list and non-negative. -/
theorem not_exist_tag_selector_spec_witness :
    (notExistTagSelect [0, 1, 5] [2] 3).length = 3 ∧
    ((3 : ℤ) ∉ ([0, 1, 5] : List ℤ) ∧ (3 : ℤ) ∉ ([2] : List ℤ) ∧ (0 : ℤ) ≤ 3) :=
  ⟨(not_exist_tag_selector_spec [0, 1, 5] [2] 3).1,
   (not_exist_tag_selector_spec [0, 1, 5] [2] 3).2.2 3 (by decide)⟩

/-- Setting one in-range entry of a list adjusts the multiplicity of the
overwritten and the written value and nothing else. -/
lemma count_set_eq {α : Type} [DecidableEq α] :
    ∀ (l : List α) (i : ℕ) (h : i < l.length) (a x : α),
      (l.set i a).count x + (if l[i] = x then 1 else 0)
        = l.count x + (if a = x then 1 else 0) := by
  intro l
  induction l with
  | nil => intro i h; exact absurd h (Nat.not_lt_zero i)
  | cons y ys ih =>
    intro i h a x
    cases i with
    | zero =>
      simp only [List.set_cons_zero, List.getElem_cons_zero, List.count_cons, beq_iff_eq]
      split_ifs <;> omega
    | succ k =>
      have hk : k < ys.length := by simpa using h
      have hih := ih k hk a x
      simp only [List.set_cons_succ, List.getElem_cons_succ, List.count_cons, beq_iff_eq]
      split_ifs at hih ⊢ <;> omega

/-- The simultaneous swap of two in-range entries permutes the list. -/
lemma swapAt_perm {α : Type} [DecidableEq α] (l : List α) (d : α) (i j : ℕ)
    (hi : i < l.length) (hj : j < l.length) : (swapAt l d i j).Perm l := by
  rw [List.perm_iff_count]
  intro x
  unfold swapAt
  rw [List.getD_eq_getElem l d hi, List.getD_eq_getElem l d hj]
  have hj' : j < (l.set i (l[j])).length := by simpa using hj
  have h1 := count_set_eq l i hi (l[j]) x
  have h2 := count_set_eq (l.set i (l[j])) j hj' (l[i]) x
  rw [List.getElem_set] at h2
  by_cases hij : i = j
  · subst hij
    rw [if_pos rfl] at h2
    split_ifs at h1 h2 <;> omega
  · rw [if_neg hij] at h2
    split_ifs at h1 h2 <;> omega

/-- Swapping preserves the length of a list. -/
lemma swapAt_length {α : Type} (l : List α) (d : α) (i j : ℕ) :
    (swapAt l d i j).length = l.length := by
  simp [swapAt]

/-- The inner fold of the sampler loop, swapping entries of the symbols
and tags lists at every zipped index pair, preserves the lengths of both
lists and permutes each of them. -/
lemma swapFold_perm (n : ℕ) :
    ∀ (ps : List (ℕ × ℕ)), (∀ p ∈ ps, p.1 < n ∧ p.2 < n) →
      ∀ (sy : List String) (tg : List ℤ), sy.length = n → tg.length = n →
        (ps.foldl (fun st ij => (swapAt st.1 "" ij.1 ij.2, swapAt st.2 0 ij.1 ij.2))
            (sy, tg)).1.length = n ∧
        (ps.foldl (fun st ij => (swapAt st.1 "" ij.1 ij.2, swapAt st.2 0 ij.1 ij.2))
            (sy, tg)).2.length = n ∧
        (ps.foldl (fun st ij => (swapAt st.1 "" ij.1 ij.2, swapAt st.2 0 ij.1 ij.2))
            (sy, tg)).1.Perm sy ∧
        (ps.foldl (fun st ij => (swapAt st.1 "" ij.1 ij.2, swapAt st.2 0 ij.1 ij.2))
            (sy, tg)).2.Perm tg := by
  intro ps
  induction ps with
  | nil =>
    intro _ sy tg hsy htg
    exact ⟨hsy, htg, List.Perm.refl sy, List.Perm.refl tg⟩
  | cons p ps ih =>
    intro hps sy tg hsy htg
    have hp := hps p (List.mem_cons_self p ps)
    have hsy' : (swapAt sy "" p.1 p.2).length = n := by rw [swapAt_length]; exact hsy
    have htg' : (swapAt tg 0 p.1 p.2).length = n := by rw [swapAt_length]; exact htg
    have hrec := ih (fun q hq => hps q (List.mem_cons_of_mem p hq))
      (swapAt sy "" p.1 p.2) (swapAt tg 0 p.1 p.2) hsy' htg'
    rw [List.foldl_cons]
    refine ⟨hrec.1, hrec.2.1, ?_, ?_⟩
    · exact hrec.2.2.1.trans (swapAt_perm sy "" p.1 p.2 (hsy ▸ hp.1) (hsy ▸ hp.2))
    · exact hrec.2.2.2.trans (swapAt_perm tg 0 p.1 p.2 (htg ▸ hp.1) (htg ▸ hp.2))

/-- Indices produced by the index comprehension are in range. -/
lemma tagIndices_lt (systemTags : List ℤ) (t : ℤ) :
    ∀ i ∈ tagIndices systemTags t, i < systemTags.length := by
  intro i hi
  have := (List.mem_filter.mp hi).1
  exact List.mem_range.mp this

/-- The double loop of ChemicalSymbolExchangeSampler.sample preserves the
lengths of the symbols and tags lists and permutes each of them. -/
lemma exchangeLoop_perm (systemTags : List ℤ) :
    ∀ (tagPairs : List (ℤ × ℤ)) (sy : List String) (tg : List ℤ),
      sy.length = systemTags.length → tg.length = systemTags.length →
      (exchangeLoop systemTags tagPairs (sy, tg)).1.length = systemTags.length ∧
      (exchangeLoop systemTags tagPairs (sy, tg)).2.length = systemTags.length ∧
      (exchangeLoop systemTags tagPairs (sy, tg)).1.Perm sy ∧
      (exchangeLoop systemTags tagPairs (sy, tg)).2.Perm tg := by
  intro tagPairs
  induction tagPairs with
  | nil =>
    intro sy tg hsy htg
    exact ⟨hsy, htg, List.Perm.refl sy, List.Perm.refl tg⟩
  | cons p ps ih =>
    intro sy tg hsy htg
    have hzip : ∀ q ∈ (tagIndices systemTags p.1).zip (tagIndices systemTags p.2),
        q.1 < systemTags.length ∧ q.2 < systemTags.length := by
      intro q hq
      have hmem := List.of_mem_zip hq
      exact ⟨tagIndices_lt systemTags p.1 q.1 hmem.1,
             tagIndices_lt systemTags p.2 q.2 hmem.2⟩
    have hstep := swapFold_perm systemTags.length
      ((tagIndices systemTags p.1).zip (tagIndices systemTags p.2)) hzip sy tg hsy htg
    have hrec := ih _ _ hstep.1 hstep.2.1
    rw [exchangeLoop, List.foldl_cons]
    rw [exchangeLoop] at hrec
    refine ⟨hrec.1, hrec.2.1, ?_, ?_⟩
    · exact hrec.2.2.1.trans hstep.2.2.1
    · exact hrec.2.2.2.trans hstep.2.2.2

/-- Writing a symbols list of matching length onto a configuration
replaces the symbols pointwise and leaves tags and positions unchanged. -/
lemma setSymbols_fields :
    ∀ (c : List Site) (syms : List String), syms.length = c.length →
      (setSymbols c syms).map (fun s => s.symbol) = syms ∧
      (setSymbols c syms).map (fun s => s.tag) = c.map (fun s => s.tag) ∧
      (setSymbols c syms).map (fun s => s.position) = c.map (fun s => s.position) ∧
      (setSymbols c syms).length = c.length := by
  intro c
  induction c with
  | nil =>
    intro syms h
    have : syms = [] := List.length_eq_zero.mp h
    subst this
    exact ⟨rfl, rfl, rfl, rfl⟩
  | cons site rest ih =>
    intro syms h
    cases syms with
    | nil => exact absurd h (by simp)
    | cons s ss =>
      have hss : ss.length = rest.length := by simpa using h
      have hr := ih ss hss
      refine ⟨?_, ?_, ?_, ?_⟩ <;>
        simp [setSymbols, hr.1, hr.2.1, hr.2.2.1, hr.2.2.2,
          setSymbols] at * <;> simp_all [setSymbols]

/-- Writing a tags list of matching length onto a configuration replaces
the tags pointwise and leaves symbols and positions unchanged. -/
lemma setSiteTags_fields :
    ∀ (c : List Site) (ts : List ℤ), ts.length = c.length →
      (setSiteTags c ts).map (fun s => s.tag) = ts ∧
      (setSiteTags c ts).map (fun s => s.symbol) = c.map (fun s => s.symbol) ∧
      (setSiteTags c ts).map (fun s => s.position) = c.map (fun s => s.position) ∧
      (setSiteTags c ts).length = c.length := by
  intro c
  induction c with
  | nil =>
    intro ts h
    have : ts = [] := List.length_eq_zero.mp h
    subst this
    exact ⟨rfl, rfl, rfl, rfl⟩
  | cons site rest ih =>
    intro ts h
    cases ts with
    | nil => exact absurd h (by simp)
    | cons t ts' =>
      have hts : ts'.length = rest.length := by simpa using h
      have hr := ih ts' hts
      refine ⟨?_, ?_, ?_, ?_⟩ <;>
        simp [setSiteTags, hr.1, hr.2.1, hr.2.2.1, hr.2.2.2] at * <;>
        simp_all [setSiteTags]

/-- C9: ChemicalSymbolExchangeSampler.sample returns a candidate with the
same number of sites, the same positions site by site, and the multiset
of chemical symbols and the multiset of tags both preserved. -/
theorem chemical_symbol_exchange_sample_frame :
    ∀ (system : List Site) (tagPairs : List (ℤ × ℤ)),
      (chemicalSymbolExchangeSample system tagPairs).length = system.length ∧
      (chemicalSymbolExchangeSample system tagPairs).map (fun s => s.position)
        = system.map (fun s => s.position) ∧
      ((chemicalSymbolExchangeSample system tagPairs).map (fun s => s.symbol)).Perm
        (system.map (fun s => s.symbol)) ∧
      ((chemicalSymbolExchangeSample system tagPairs).map (fun s => s.tag)).Perm
        (system.map (fun s => s.tag)) := by
  intro system tagPairs
  have hsy : (system.map (fun s => s.symbol)).length
      = (system.map (fun s => s.tag)).length := by simp
  have hloop := exchangeLoop_perm (system.map (fun s => s.tag)) tagPairs
    (system.map (fun s => s.symbol)) (system.map (fun s => s.tag))
    (by simp) (by simp)
  set st := exchangeLoop (system.map (fun s => s.tag)) tagPairs
    (system.map (fun s => s.symbol), system.map (fun s => s.tag)) with hst
  have hlen1 : st.1.length = system.length := by
    have := hloop.1
    simpa using this
  have hlen2 : st.2.length = system.length := by
    have := hloop.2.1
    simpa using this
  have hsetsym := setSymbols_fields system st.1 hlen1
  have hlen3 : st.2.length = (setSymbols system st.1).length := by
    rw [hsetsym.2.2.2, hlen2]
  have hsettag := setSiteTags_fields (setSymbols system st.1) st.2 hlen3
  rw [chemicalSymbolExchangeSample]
  refine ⟨?_, ?_, ?_, ?_⟩
  · rw [← hst, hsettag.2.2.2, hsetsym.2.2.2]
  · rw [← hst, hsettag.2.2.1, hsetsym.2.2.1]
  · rw [← hst, hsettag.2.1, hsetsym.1]
    exact hloop.2.2.1
  · rw [← hst, hsettag.1]
    exact hloop.2.2.2

end Asetil
